import Mathlib

/-!
Verification development for a small scalar automatic-differentiation engine
(expression graphs with value evaluation, forward-mode and reverse-mode
differentiation).

Embedding conventions:
* The mutable object graph of the source is modelled as an arena: a list of
  nodes addressed by stable integer indices.  Child/parent links are index
  lists; node identity is index equality.
* Python floats are modelled by the exact domain `F` (a rational number or
  NaN).  All arithmetic appearing in the claims is exact on small integers,
  where double-precision floats and rationals agree.  NaN propagates through
  the arithmetic operators, as it does for floats.
* The per-operator strategy objects of the source are modelled as a closed
  sum `OpKind` dispatched by `match` inside each pass, as the source's own
  design notes suggest for a reimplementation.
* The two traversal generators `dfs` and `bfs` are transcribed literally
  (explicit pending deque, seen/yielded sets as membership lists, same push
  and pop ends) and are given a fuel parameter: `none` means the loop did not
  finish within `fuel` iterations.  A run of the source terminates exactly
  when some fuel suffices.
-/

namespace Autodiff

/-- Scalar domain: NaN (Python float NaN) or an exact rational written as an
unreduced integer fraction n / d.  Fractions are kept unreduced so that all
arithmetic is plain integer arithmetic the kernel evaluates directly; every
number reached by a claim is produced and compared at denominator 1, where
equality of representations coincides with equality of values (and with
equality of the corresponding exact floats: the claims only involve small
integers, on which double-precision arithmetic is exact). -/
inductive F : Type
  | nan : F
  | num (n d : ℤ) : F
deriving DecidableEq

/-- Embed an integer scalar. -/
def F.int (k : ℤ) : F := F.num k 1

/-- Addition with NaN propagation. -/
def F.add : F → F → F
  | F.num a b, F.num c d => F.num (a * d + c * b) (b * d)
  | _, _ => F.nan

/-- Subtraction with NaN propagation. -/
def F.sub : F → F → F
  | F.num a b, F.num c d => F.num (a * d - c * b) (b * d)
  | _, _ => F.nan

/-- Negation with NaN propagation. -/
def F.neg : F → F
  | F.num a b => F.num (-a) b
  | _ => F.nan

/-- Multiplication with NaN propagation.  (Python also maps 0.0 * nan to
nan, so uniform propagation is faithful.) -/
def F.mul : F → F → F
  | F.num a b, F.num c d => F.num (a * c) (b * d)
  | _, _ => F.nan

/-- Division with NaN propagation.  A zero divisor is mapped to NaN here;
Python raises ZeroDivisionError instead.  No claim exercises a zero
divisor. -/
def F.div : F → F → F
  | F.num a b, F.num c d => if c = 0 then F.nan else F.num (a * d) (b * c)
  | _, _ => F.nan

/-- Power of a fraction by an integer exponent. -/
def F.zpow (a b : ℤ) (k : ℤ) : F :=
  if 0 ≤ k then F.num (a ^ k.toNat) (b ^ k.toNat)
  else F.num (b ^ (-k).toNat) (a ^ (-k).toNat)

/-- Power `b ** e` restricted to exponents represented at denominator 1,
where float and exact rational arithmetic agree; any other exponent (whose
float result is irrational in general) is mapped to NaN.  No claim exercises
such an exponent or the Python edge cases (nan ** 0 = 1.0, 0.0 ** negative
raises). -/
def F.fpow : F → F → F
  | F.num a b, F.num c d => if d = 1 then F.zpow a b c else F.nan
  | _, _ => F.nan

/-- Order test n1/d1 <= n2/d2 on fractions with nonzero denominators
(cross-multiplied by the positive square of both denominators). -/
def F.qle (n1 d1 n2 d2 : ℤ) : Bool :=
  decide (n1 * d1 * d2 ^ 2 ≤ n2 * d2 * d1 ^ 2)

/-- Transcription of the module-level helper `close` (math.isclose with
abs_tol 9e-7 and the default rel_tol 1e-9); False on NaN, as in Python. -/
def F.close : F → F → Bool
  | F.num a b, F.num c d =>
      F.qle (|a * d - c * b|) (|b * d|)
        (max (|a| * |d|) (|c| * |b|)) (|b * d| * 10 ^ 9)
      || F.qle (|a * d - c * b|) (|b * d|) 9 (10 ^ 7)
  | _, _ => false

/-- Natural logarithm on the exact domain.  ln of a rational is irrational
except at 1, so it is not representable in `F`; it is mapped to NaN here.
This stub is never reached by any claim: the claims about Pow's adjoint rule
use the real-valued transcription `Pow_backward_run` below. -/
def F.qlog : F → F := fun _ => F.nan

/-- Test `x <= 0.0` as Python evaluates it on floats: False on NaN. -/
def F.le0 : F → Bool
  | F.num a b => decide (a * b ≤ 0)
  | F.nan => false

/-- The closed set of operator variants (classes Val, Add, Sub, Neg, Mult,
Pow, Div of the source). -/
inductive OpKind : Type
  | val | add | sub | neg | mult | pow | div
deriving DecidableEq

/-- A graph node (class Var): name, operator tag, child and parent index
lists, and the three mutable scalar slots.  The constructor of the source
initializes all three slots to NaN. -/
structure Node : Type where
  name : String
  op : OpKind
  children : List Nat
  parents : List Nat
  eval_value : F
  forward_value : F
  adjoint_value : F

/-- Default node returned for an out-of-range index (never reached on
well-formed graphs). -/
def defNode : Node :=
  { name := "", op := OpKind.val, children := [], parents := [],
    eval_value := F.nan, forward_value := F.nan, adjoint_value := F.nan }

/-- The arena of nodes; a Var object is an index into it. -/
abbrev Graph : Type := List Node

/-- Read a node. -/
def get (g : Graph) (i : Nat) : Node := List.getD g i defNode

/-- Replace a node by a function of its current state (mutation of one
object in the source). -/
def update (g : Graph) (i : Nat) (f : Node → Node) : Graph :=
  List.set g i (f (get g i))

/-- Length of the arena. -/
def size (g : Graph) : Nat := List.length g

/-- Var.__init__: append a fresh node, all scalar slots NaN, operator Val,
no links.  Returns the new index. -/
def mkVar (nm : String) (g : Graph) : Graph × Nat :=
  (g ++ [{ name := nm, op := OpKind.val, children := [], parents := [],
           eval_value := F.nan, forward_value := F.nan,
           adjoint_value := F.nan }], size g)

/-- Var.assign: set the value slot. -/
def assign (g : Graph) (i : Nat) (v : F) : Graph :=
  update g i fun nd => { nd with eval_value := v }

/-- Var.grad: read the adjoint slot. -/
def grad (g : Graph) (i : Nat) : F := (get g i).adjoint_value

/-- Var.add_child: append to the parent's children, then append the parent
to the child's parents (both directions, in source order). -/
def add_child (g : Graph) (p c : Nat) : Graph :=
  update (update g p fun nd => { nd with children := nd.children ++ [c] })
    c fun nd => { nd with parents := nd.parents ++ [p] }

/-- Shared shape of the binary builders __add__, __sub__, __mul__,
__truediv__: allocate a node, attach the operator, wire self then the
resolved operand as children. -/
def mkBinary (nm : String) (k : OpKind) (g : Graph) (i j : Nat) :
    Graph × Nat :=
  let p := mkVar nm g
  let g2 := update p.1 p.2 fun nd => { nd with op := k }
  let g3 := add_child g2 p.2 i
  (add_child g3 p.2 j, p.2)

/-- Var.__add__ on two existing nodes. -/
def addB (g : Graph) (i j : Nat) : Graph × Nat := mkBinary "+" OpKind.add g i j

/-- Var.__sub__ on two existing nodes. -/
def subB (g : Graph) (i j : Nat) : Graph × Nat := mkBinary "-" OpKind.sub g i j

/-- Var.__mul__ on two existing nodes. -/
def multB (g : Graph) (i j : Nat) : Graph × Nat := mkBinary "*" OpKind.mult g i j

/-- Var.__truediv__ on two existing nodes. -/
def divB (g : Graph) (i j : Nat) : Graph × Nat := mkBinary "/" OpKind.div g i j

/-- Var.__neg__. -/
def negB (g : Graph) (i : Nat) : Graph × Nat :=
  let p := mkVar "-" g
  let g2 := update p.1 p.2 fun nd => { nd with op := OpKind.neg }
  (add_child g2 p.2 i, p.2)

/-- Var.__pow__ on two existing nodes: wires the base, then OVERWRITES the
exponent operand's operator to Val (power.op = Val(power) in the source),
then wires the exponent. -/
def powB (g : Graph) (i j : Nat) : Graph × Nat :=
  let p := mkVar "^" g
  let g2 := update p.1 p.2 fun nd => { nd with op := OpKind.pow }
  let g3 := add_child g2 p.2 i
  let g4 := update g3 j fun nd => { nd with op := OpKind.val }
  (add_child g4 p.2 j, p.2)

/-- Var.resolve on a numeric literal: a fresh Val node holding the value
(str(node) as its name). -/
def mkLit (q : ℤ) (g : Graph) : Graph × Nat :=
  let p := mkVar (toString q) g
  (update p.1 p.2 fun nd => { nd with eval_value := F.int q }, p.2)

/-- Index of the k-th child of node i (out-of-range maps to the default
node's index). -/
def child (g : Graph) (i k : Nat) : Nat :=
  List.getD (get g i).children k (size g)

/-- One iteration block of Var.dfs: push unseen children (in order) on the
pending stack, marking them seen at push time, exactly as the source does. -/
def pushKids (ch : List Nat) (pend : List (Nat × Bool)) (seen : List Nat) :
    List (Nat × Bool) × List Nat :=
  ch.foldl
    (fun acc c => if c ∈ acc.2 then acc else ((c, false) :: acc.1, c :: acc.2))
    (pend, seen)

/-- Var.dfs: explicit-stack walk.  The pending deque is a stack (append and
pop at the same end); the head of the list is the top.  `seen` is the
membership set, `acc` the reversed yield list.  Fuel bounds the number of
loop iterations; `none` means the loop did not finish. -/
def dfsAux (g : Graph) : Nat → List (Nat × Bool) → List Nat → List Nat →
    Option (List Nat)
  | _, [], _, acc => some acc.reverse
  | 0, _ :: _, _, _ => none
  | fuel + 1, (c, true) :: rest, seen, acc => dfsAux g fuel rest seen (c :: acc)
  | fuel + 1, (c, false) :: rest, seen, acc =>
    if (get g c).children.isEmpty then dfsAux g fuel rest seen (c :: acc)
    else
      let pr := pushKids (get g c).children ((c, true) :: rest) seen
      dfsAux g fuel pr.1 pr.2 acc

/-- Var.dfs from a root. -/
def dfs (g : Graph) (root fuel : Nat) : Option (List Nat) :=
  dfsAux g fuel [(root, false)] [root] []

/-- Push unseen children at the pop end of the bfs deque (the source appends
at the same end it pops from). -/
def pushKidsB (ch : List Nat) (pend seen : List Nat) :
    List Nat × List Nat :=
  ch.foldl
    (fun acc c => if c ∈ acc.2 then acc else (c :: acc.1, c :: acc.2))
    (pend, seen)

/-- Var.bfs: the parent-gated walk used by backward.  The head of `pend` is
the pop end of the deque; a node whose parents are not all yielded is
re-deferred to the far end (the appendleft of the source). -/
def bfsAux (g : Graph) : Nat → List Nat → List Nat → List Nat → List Nat →
    Option (List Nat)
  | _, [], _, _, acc => some acc.reverse
  | 0, _ :: _, _, _, _ => none
  | fuel + 1, c :: rest, seen, yielded, acc =>
    if ∀ p ∈ (get g c).parents, p ∈ yielded then
      let pr := pushKidsB (get g c).children rest seen
      bfsAux g fuel pr.1 pr.2 (c :: yielded) (c :: acc)
    else
      bfsAux g fuel (rest ++ [c]) seen yielded acc

/-- Var.bfs from a root. -/
def bfs (g : Graph) (root fuel : Nat) : Option (List Nat) :=
  bfsAux g fuel [root] [root] [] []

/-- Op.eval of the operator variant attached to node i, transcribed per
variant (Val.eval does nothing). -/
def evalStep (g : Graph) (i : Nat) : Graph :=
  match (get g i).op with
  | OpKind.val => g
  | OpKind.add =>
      let v := F.add (get g (child g i 0)).eval_value
        (get g (child g i 1)).eval_value
      update g i fun nd => { nd with eval_value := v }
  | OpKind.sub =>
      let v := F.sub (get g (child g i 0)).eval_value
        (get g (child g i 1)).eval_value
      update g i fun nd => { nd with eval_value := v }
  | OpKind.neg =>
      let v := F.neg (get g (child g i 0)).eval_value
      update g i fun nd => { nd with eval_value := v }
  | OpKind.mult =>
      let v := F.mul (get g (child g i 0)).eval_value
        (get g (child g i 1)).eval_value
      update g i fun nd => { nd with eval_value := v }
  | OpKind.pow =>
      let v := F.fpow (get g (child g i 0)).eval_value
        (get g (child g i 1)).eval_value
      update g i fun nd => { nd with eval_value := v }
  | OpKind.div =>
      let v := F.div (get g (child g i 0)).eval_value
        (get g (child g i 1)).eval_value
      update g i fun nd => { nd with eval_value := v }

/-- Run eval over a yield list. -/
def evalFold (g : Graph) (l : List Nat) : Graph :=
  l.foldl evalStep g

/-- Var.value: depth-first walk, eval each yielded node, return the root's
value slot. -/
def value (g : Graph) (root fuel : Nat) : Option (Graph × F) :=
  match dfs g root fuel with
  | none => none
  | some l =>
    let g1 := evalFold g l
    some (g1, (get g1 root).eval_value)

/-- Op.forward of the variant attached to node i, transcribed per variant.
Val compares object identity with the seed, which is index equality in the
arena. -/
def forwardStep (wrt : Nat) (g : Graph) (i : Nat) : Graph :=
  match (get g i).op with
  | OpKind.val =>
      update g i fun nd =>
        { nd with forward_value := if i = wrt then F.int 1 else F.int 0 }
  | OpKind.add =>
      let v := F.add (get g (child g i 0)).forward_value
        (get g (child g i 1)).forward_value
      update g i fun nd => { nd with forward_value := v }
  | OpKind.sub =>
      let v := F.sub (get g (child g i 0)).forward_value
        (get g (child g i 1)).forward_value
      update g i fun nd => { nd with forward_value := v }
  | OpKind.neg =>
      let v := F.neg (get g (child g i 0)).forward_value
      update g i fun nd => { nd with forward_value := v }
  | OpKind.mult =>
      let v := F.add
        (F.mul (get g (child g i 0)).forward_value
          (get g (child g i 1)).eval_value)
        (F.mul (get g (child g i 0)).eval_value
          (get g (child g i 1)).forward_value)
      update g i fun nd => { nd with forward_value := v }
  | OpKind.pow =>
      let val := (get g i).eval_value
      let power_val := (get g (child g i 1)).eval_value
      let quotient_val := (get g (child g i 0)).eval_value
      let power_d := (get g (child g i 1)).forward_value
      let quotient_d := (get g (child g i 0)).forward_value
      let v :=
        if F.close power_d (F.int 0) then
          F.mul (F.mul power_val
            (F.fpow quotient_val (F.sub power_val (F.int 1)))) quotient_d
        else
          F.mul val (F.add (F.mul power_d (F.qlog quotient_val))
            (F.div (F.mul power_val quotient_d) quotient_val))
      update g i fun nd => { nd with forward_value := v }
  | OpKind.div =>
      let left_val := (get g (child g i 0)).eval_value
      let left_d := (get g (child g i 0)).forward_value
      let right_val := (get g (child g i 1)).eval_value
      let right_d := (get g (child g i 1)).forward_value
      let v := F.add (F.div left_d right_val)
        (F.mul (F.mul (F.mul right_d (F.int (-1))) left_val)
          (F.fpow right_val (F.int (-2))))
      update g i fun nd => { nd with forward_value := v }

/-- Run the forward computation over a yield list. -/
def forwardFold (wrt : Nat) (g : Graph) (l : List Nat) : Graph :=
  l.foldl (forwardStep wrt) g

/-- Var.forward: evaluate, then walk again computing forward derivatives,
return the root's forward slot. -/
def forward (g : Graph) (root wrt fuel : Nat) : Option (Graph × F) :=
  match value g root fuel with
  | none => none
  | some p =>
    match dfs p.1 root fuel with
    | none => none
    | some l =>
      let g2 := forwardFold wrt p.1 l
      some (g2, (get g2 root).forward_value)

/-- Op.accum_grad: add a contribution into a node's adjoint slot (+=). -/
def accum_grad (g : Graph) (c : Nat) (v : F) : Graph :=
  update g c fun nd => { nd with adjoint_value := F.add nd.adjoint_value v }

/-- Op._backward of the variant attached to node i, transcribed per variant
with the source's exact read order (Add/Sub/Neg/Mult re-read fields between
the two accumulate calls; Pow/Div capture locals once up front). -/
def backwardStep (g : Graph) (i : Nat) : Graph :=
  match (get g i).op with
  | OpKind.val => g
  | OpKind.add =>
      let g1 := accum_grad g (child g i 0) (get g i).adjoint_value
      accum_grad g1 (child g1 i 1) (get g1 i).adjoint_value
  | OpKind.sub =>
      let g1 := accum_grad g (child g i 0) (get g i).adjoint_value
      accum_grad g1 (child g1 i 1) (F.neg (get g1 i).adjoint_value)
  | OpKind.neg =>
      accum_grad g (child g i 0) (F.neg (get g i).adjoint_value)
  | OpKind.mult =>
      let g1 := accum_grad g (child g i 0)
        (F.mul (get g i).adjoint_value (get g (child g i 1)).eval_value)
      accum_grad g1 (child g1 i 1)
        (F.mul (get g1 i).adjoint_value (get g1 (child g1 i 0)).eval_value)
  | OpKind.pow =>
      let val := (get g i).eval_value
      let val_d := (get g i).adjoint_value
      let power_val := (get g (child g i 1)).eval_value
      let quotient_val := (get g (child g i 0)).eval_value
      let g1 := accum_grad g (child g i 0)
        (F.mul (F.mul val_d power_val)
          (F.fpow quotient_val (F.sub power_val (F.int 1))))
      accum_grad g1 (child g1 i 1)
        (if F.le0 quotient_val then F.nan
         else F.mul (F.mul val_d val) (F.qlog quotient_val))
  | OpKind.div =>
      let d_self := (get g i).adjoint_value
      let left_val := (get g (child g i 0)).eval_value
      let right_val := (get g (child g i 1)).eval_value
      let g1 := accum_grad g (child g i 0) (F.div d_self right_val)
      accum_grad g1 (child g1 i 1)
        (F.mul (F.mul (F.mul d_self (F.int (-1))) left_val)
          (F.fpow right_val (F.int (-2))))

/-- Var.clear_grad: reset the adjoint slot of every node of a yield list
to 0. -/
def clear_grad_fold (g : Graph) (l : List Nat) : Graph :=
  l.foldl (fun h i => update h i fun nd => { nd with adjoint_value := F.int 0 })
    g

/-- Var.backward: evaluate, clear the adjoints of every node the dfs walk
reaches, seed the root's adjoint with 1 (Op.backward with root=True), then
run the parent-gated walk distributing adjoints. -/
def backward (g : Graph) (root fuel : Nat) : Option Graph :=
  match value g root fuel with
  | none => none
  | some p =>
    match dfs p.1 root fuel with
    | none => none
    | some l =>
      let g2 := clear_grad_fold p.1 l
      let g3 := update g2 root fun nd => { nd with adjoint_value := F.int 1 }
      match bfs g3 root fuel with
      | none => none
      | some lb => some (lb.foldl backwardStep g3)

/-! ### Concrete graphs used by the claims -/

/-- Diamond graph f = (x*y) + (y*z) with x=3, y=5, z=11.
Indices: x=0, y=1, z=2, x*y=3, y*z=4, f=5.  y has the two parents 3 and 4. -/
def gDiamond : Graph :=
  let p0 := mkVar "x" []
  let p1 := mkVar "y" p0.1
  let p2 := mkVar "z" p1.1
  let g := assign (assign (assign p2.1 0 (F.int 3)) 1 (F.int 5)) 2 (F.int 11)
  let p3 := multB g 0 1
  let p4 := multB p3.1 1 2
  let p5 := addB p4.1 3 4
  p5.1

/-- Graph with a shared non-leaf subexpression reached at two different
depths: s = x + x, c = s * 2, q = c + 3, r = s + q, with x = 1.
Indices: x=0, s=1, lit2=2, c=3, lit3=4, q=5, r=6 (literals are resolved
before the composite node is allocated, as in the source). -/
def gShared : Graph :=
  let p0 := mkVar "x" []
  let g := assign p0.1 0 (F.int 1)
  let p1 := addB g 0 0
  let p2 := mkLit 2 p1.1
  let p3 := multB p2.1 1 2
  let p4 := mkLit 3 p3.1
  let p5 := addB p4.1 3 4
  let p6 := addB p5.1 1 5
  p6.1

/-- Two roots sharing a leaf: a = x + 2, b = x + 3, with x = 1.
Indices: x=0, lit2=1, a=2, lit3=3, b=4.  The leaf x has parents [2, 4], and
parent 2 is not reachable from the root 4. -/
def gTwoRoots : Graph :=
  let p0 := mkVar "x" []
  let g := assign p0.1 0 (F.int 1)
  let p1 := mkLit 2 g
  let p2 := addB p1.1 0 1
  let p3 := mkLit 3 p2.1
  let p4 := addB p3.1 0 3
  p4.1

/-- Graph f = x + y with x=1, y=2, plus a fresh detached leaf n.
Indices: x=0, y=1, f=2, n=3. -/
def gDetached : Graph :=
  let p0 := mkVar "x" []
  let p1 := mkVar "y" p0.1
  let g := assign (assign p1.1 0 (F.int 1)) 1 (F.int 2)
  let p2 := addB g 0 1
  let p3 := mkVar "n" p2.1
  p3.1

/-- Two leaves and a composite e = x + y, used as a pow exponent.
Indices: x=0, y=1, e=2. -/
def gPowOperand : Graph :=
  let p0 := mkVar "x" []
  let p1 := mkVar "y" p0.1
  let p2 := addB p1.1 0 1
  p2.1

/-! ### Arena access lemmas -/

theorem getD_set_ne {α : Type} (d : α) :
    ∀ (l : List α) (i j : Nat) (a : α), i ≠ j →
      List.getD (List.set l i a) j d = List.getD l j d := by
  intro l
  induction l with
  | nil => intro i j a _; rfl
  | cons x xs ih =>
    intro i j a h
    cases i with
    | zero =>
      cases j with
      | zero => exact absurd rfl h
      | succ j => rfl
    | succ i =>
      cases j with
      | zero => rfl
      | succ j => exact ih i j a fun hh => h (congrArg Nat.succ hh)

theorem getD_set_self {α : Type} (d : α) :
    ∀ (l : List α) (i : Nat) (a : α), i < l.length →
      List.getD (List.set l i a) i d = a := by
  intro l
  induction l with
  | nil => intro i a h; exact absurd h (Nat.not_lt_zero i)
  | cons x xs ih =>
    intro i a h
    cases i with
    | zero => rfl
    | succ i => exact ih i a (Nat.lt_of_succ_lt_succ h)

theorem set_of_length_le {α : Type} :
    ∀ (l : List α) (i : Nat) (a : α), l.length ≤ i → List.set l i a = l := by
  intro l
  induction l with
  | nil => intro i a _; rfl
  | cons x xs ih =>
    intro i a h
    cases i with
    | zero => exact absurd h (Nat.not_succ_le_zero _)
    | succ i => exact congrArg (x :: ·) (ih i a (Nat.le_of_succ_le_succ h))

theorem getD_append_lt {α : Type} (d : α) :
    ∀ (l m : List α) (j : Nat), j < l.length →
      List.getD (l ++ m) j d = List.getD l j d := by
  intro l
  induction l with
  | nil => intro m j h; exact absurd h (Nat.not_lt_zero j)
  | cons x xs ih =>
    intro m j h
    cases j with
    | zero => rfl
    | succ j => exact ih m j (Nat.lt_of_succ_lt_succ h)

theorem getD_append_len {α : Type} (d : α) :
    ∀ (l : List α) (x : α), List.getD (l ++ [x]) l.length d = x := by
  intro l
  induction l with
  | nil => intro x; rfl
  | cons y ys ih => intro x; exact ih x

theorem get_update_ne (g : Graph) (i k : Nat) (f : Node → Node) (h : k ≠ i) :
    get (update g i f) k = get g k :=
  getD_set_ne defNode g i k (f (get g i)) fun hh => h hh.symm

theorem get_update_self (g : Graph) (i : Nat) (f : Node → Node)
    (h : i < List.length g) : get (update g i f) i = f (get g i) :=
  getD_set_self defNode g i (f (get g i)) h

theorem update_oob (g : Graph) (i : Nat) (f : Node → Node)
    (h : List.length g ≤ i) : update g i f = g :=
  set_of_length_le g i (f (get g i)) h

theorem size_update (g : Graph) (i : Nat) (f : Node → Node) :
    List.length (update g i f) = List.length g := by
  simp [update]

theorem size_add_child (g : Graph) (p c : Nat) :
    List.length (add_child g p c) = List.length g := by
  simp [add_child, update]

/-! ### Frame lemmas for the builders -/

/-- All fields of two nodes agree except possibly the parents list. -/
def sameExceptParents (a b : Node) : Prop :=
  a.name = b.name ∧ a.op = b.op ∧ a.children = b.children ∧
  a.eval_value = b.eval_value ∧ a.forward_value = b.forward_value ∧
  a.adjoint_value = b.adjoint_value

theorem sep_refl (a : Node) : sameExceptParents a a :=
  ⟨rfl, rfl, rfl, rfl, rfl, rfl⟩

theorem sep_trans {a b c : Node} (h1 : sameExceptParents a b)
    (h2 : sameExceptParents b c) : sameExceptParents a c := by
  obtain ⟨u1, u2, u3, u4, u5, u6⟩ := h1
  obtain ⟨v1, v2, v3, v4, v5, v6⟩ := h2
  exact ⟨u1.trans v1, u2.trans v2, u3.trans v3, u4.trans v4, u5.trans v5,
    u6.trans v6⟩

theorem sep_update_parents (g : Graph) (i k : Nat) (pf : Node → List Nat) :
    sameExceptParents
      (get (update g i fun nd => { nd with parents := pf nd }) k) (get g k) := by
  by_cases hk : k = i
  · subst hk
    by_cases hlt : k < List.length g
    · rw [get_update_self g k _ hlt]
      exact ⟨rfl, rfl, rfl, rfl, rfl, rfl⟩
    · rw [update_oob g k _ (Nat.le_of_not_lt hlt)]
      exact sep_refl _
  · rw [get_update_ne g i k _ hk]
    exact sep_refl _

theorem add_child_sep (g : Graph) (p c k : Nat) (h : k ≠ p) :
    sameExceptParents (get (add_child g p c) k) (get g k) := by
  unfold add_child
  have h1 : get (update g p fun nd => { nd with children := nd.children ++ [c] })
      k = get g k := get_update_ne g p k _ h
  have h2 := sep_update_parents
    (update g p fun nd => { nd with children := nd.children ++ [c] }) c k
    (fun nd => nd.parents ++ [p])
  rw [h1] at h2
  exact h2

theorem add_child_eq (g : Graph) (p c k : Nat) (hp : k ≠ p) (hc : k ≠ c) :
    get (add_child g p c) k = get g k := by
  unfold add_child
  rw [get_update_ne _ c k _ hc, get_update_ne _ p k _ hp]

/-- Frame property of a builder call: every pre-existing node keeps all its
fields except that the operands may gain parents back-references. -/
def buildFrame (g g' : Graph) (ops : List Nat) : Prop :=
  ∀ k, k < List.length g →
    sameExceptParents (get g' k) (get g k) ∧
    (k ∉ ops → (get g' k).parents = (get g k).parents)

theorem get_pre_mkBinary (nm : String) (kd : OpKind) (g : Graph) (k : Nat)
    (hk : k < List.length g) :
    get (update (mkVar nm g).1 (size g) fun nd => { nd with op := kd }) k
      = get g k := by
  have hkn : k ≠ size g := Nat.ne_of_lt hk
  rw [get_update_ne _ _ _ _ hkn]
  exact getD_append_lt defNode g _ k hk

theorem mkBinary_frame (nm : String) (kd : OpKind) (g : Graph) (i j : Nat) :
    buildFrame g (mkBinary nm kd g i j).1 [i, j] := by
  intro k hk
  have hkn : k ≠ size g := Nat.ne_of_lt hk
  have hpre := get_pre_mkBinary nm kd g k hk
  constructor
  · have s2 := add_child_sep
      (update (mkVar nm g).1 (size g) fun nd => { nd with op := kd })
      (size g) i k hkn
    have s1 := add_child_sep
      (add_child (update (mkVar nm g).1 (size g) fun nd => { nd with op := kd })
        (size g) i) (size g) j k hkn
    rw [hpre] at s2
    exact sep_trans s1 s2
  · intro hops
    have hi : k ≠ i := fun e => hops (by rw [e]; exact List.mem_cons_self i [j])
    have hj : k ≠ j := fun e => hops (by rw [e]; simp)
    have hall : get (mkBinary nm kd g i j).1 k = get g k := by
      show get (add_child (add_child (update (mkVar nm g).1 (size g)
        fun nd => { nd with op := kd }) (size g) i) (size g) j) k = get g k
      rw [add_child_eq _ _ _ _ hkn hj, add_child_eq _ _ _ _ hkn hi, hpre]
    rw [hall]

theorem negB_frame (g : Graph) (i : Nat) : buildFrame g (negB g i).1 [i] := by
  intro k hk
  have hkn : k ≠ size g := Nat.ne_of_lt hk
  have hpre := get_pre_mkBinary "-" OpKind.neg g k hk
  constructor
  · have s2 := add_child_sep
      (update (mkVar "-" g).1 (size g) fun nd => { nd with op := OpKind.neg })
      (size g) i k hkn
    rw [hpre] at s2
    exact s2
  · intro hops
    have hi : k ≠ i := fun e => hops (by rw [e]; exact List.mem_cons_self i [])
    have hall : get (negB g i).1 k = get g k := by
      show get (add_child (update (mkVar "-" g).1 (size g)
        fun nd => { nd with op := OpKind.neg }) (size g) i) k = get g k
      rw [add_child_eq _ _ _ _ hkn hi, hpre]
    rw [hall]

theorem powB_frame (g : Graph) (i j : Nat) :
    (∀ k, k < List.length g → k ≠ j →
      sameExceptParents (get (powB g i j).1 k) (get g k)) ∧
    (∀ k, k < List.length g → k ≠ i → k ≠ j →
      (get (powB g i j).1 k).parents = (get g k).parents) ∧
    (j < List.length g →
      (get (powB g i j).1 j).op = OpKind.val ∧
      (get (powB g i j).1 j).name = (get g j).name ∧
      (get (powB g i j).1 j).children = (get g j).children ∧
      (get (powB g i j).1 j).eval_value = (get g j).eval_value ∧
      (get (powB g i j).1 j).forward_value = (get g j).forward_value ∧
      (get (powB g i j).1 j).adjoint_value = (get g j).adjoint_value) := by
  refine ⟨?_, ?_, ?_⟩
  · intro k hk hj
    have hkn : k ≠ size g := Nat.ne_of_lt hk
    have hpre := get_pre_mkBinary "^" OpKind.pow g k hk
    have s3 := add_child_sep
      (update (mkVar "^" g).1 (size g) fun nd => { nd with op := OpKind.pow })
      (size g) i k hkn
    rw [hpre] at s3
    have h4 : get (update (add_child
        (update (mkVar "^" g).1 (size g) fun nd => { nd with op := OpKind.pow })
        (size g) i) j fun nd => { nd with op := OpKind.val }) k
        = get (add_child
        (update (mkVar "^" g).1 (size g) fun nd => { nd with op := OpKind.pow })
        (size g) i) k := get_update_ne _ j k _ hj
    have s5 := add_child_sep
      (update (add_child
        (update (mkVar "^" g).1 (size g) fun nd => { nd with op := OpKind.pow })
        (size g) i) j fun nd => { nd with op := OpKind.val }) (size g) j k hkn
    rw [h4] at s5
    exact sep_trans s5 s3
  · intro k hk hi hj
    have hkn : k ≠ size g := Nat.ne_of_lt hk
    have hpre := get_pre_mkBinary "^" OpKind.pow g k hk
    have hall : get (powB g i j).1 k = get g k := by
      show get (add_child (update (add_child
        (update (mkVar "^" g).1 (size g) fun nd => { nd with op := OpKind.pow })
        (size g) i) j fun nd => { nd with op := OpKind.val }) (size g) j) k
        = get g k
      rw [add_child_eq _ _ _ _ hkn hj, get_update_ne _ j k _ hj,
        add_child_eq _ _ _ _ hkn hi, hpre]
    rw [hall]
  · intro hj
    have hjn : j ≠ size g := Nat.ne_of_lt hj
    have hpre := get_pre_mkBinary "^" OpKind.pow g j hj
    have s3 := add_child_sep
      (update (mkVar "^" g).1 (size g) fun nd => { nd with op := OpKind.pow })
      (size g) i j hjn
    rw [hpre] at s3
    have hj3 : j < List.length (add_child
        (update (mkVar "^" g).1 (size g) fun nd => { nd with op := OpKind.pow })
        (size g) i) := by
      rw [size_add_child, size_update]
      simp [mkVar]
      omega
    have h4 := get_update_self (add_child
        (update (mkVar "^" g).1 (size g) fun nd => { nd with op := OpKind.pow })
        (size g) i) j (fun nd => { nd with op := OpKind.val }) hj3
    have s5 := add_child_sep
      (update (add_child
        (update (mkVar "^" g).1 (size g) fun nd => { nd with op := OpKind.pow })
        (size g) i) j fun nd => { nd with op := OpKind.val }) (size g) j j hjn
    rw [h4] at s5
    obtain ⟨e1, e2, e3, e4, e5, e6⟩ := s5
    obtain ⟨f1, f2, f3, f4, f5, f6⟩ := s3
    exact ⟨e2, e1.trans f1, e3.trans f3, e4.trans f4, e5.trans f5, e6.trans f6⟩

/-! ### Adjoint-slot preservation lemmas -/

theorem adj_get_update_field (g : Graph) (i k : Nat) (f : Node → Node)
    (hf : ∀ nd, (f nd).adjoint_value = nd.adjoint_value) :
    (get (update g i f) k).adjoint_value = (get g k).adjoint_value := by
  by_cases hk : k = i
  · subst hk
    by_cases hlt : k < List.length g
    · rw [get_update_self g k f hlt, hf]
    · rw [update_oob g k f (Nat.le_of_not_lt hlt)]
  · rw [get_update_ne g i k f hk]

theorem adj_evalStep (g : Graph) (i k : Nat) :
    (get (evalStep g i) k).adjoint_value = (get g k).adjoint_value := by
  cases h : (get g i).op <;> simp only [evalStep, h] <;>
    first
      | rfl
      | exact adj_get_update_field _ _ _ _ fun nd => rfl

theorem adj_forwardStep (wrt : Nat) (g : Graph) (i k : Nat) :
    (get (forwardStep wrt g i) k).adjoint_value = (get g k).adjoint_value := by
  cases h : (get g i).op <;> simp only [forwardStep, h] <;>
    exact adj_get_update_field _ _ _ _ fun nd => rfl

theorem adj_evalFold (l : List Nat) (g : Graph) (k : Nat) :
    (get (evalFold g l) k).adjoint_value = (get g k).adjoint_value := by
  induction l generalizing g with
  | nil => rfl
  | cons i t ih =>
    rw [show evalFold g (i :: t) = evalFold (evalStep g i) t from rfl,
      ih (evalStep g i), adj_evalStep]

theorem adj_forwardFold (wrt : Nat) (l : List Nat) (g : Graph) (k : Nat) :
    (get (forwardFold wrt g l) k).adjoint_value = (get g k).adjoint_value := by
  induction l generalizing g with
  | nil => rfl
  | cons i t ih =>
    rw [show forwardFold wrt g (i :: t) = forwardFold wrt (forwardStep wrt g i) t
      from rfl, ih (forwardStep wrt g i), adj_forwardStep]

theorem adj_clear_grad_fold (l : List Nat) (g : Graph) (k : Nat) :
    (get (clear_grad_fold g l) k).adjoint_value = F.int 0
    ∨ (get (clear_grad_fold g l) k).adjoint_value = (get g k).adjoint_value := by
  induction l generalizing g with
  | nil => right; rfl
  | cons i t ih =>
    rw [show clear_grad_fold g (i :: t)
      = clear_grad_fold (update g i fun nd => { nd with adjoint_value := F.int 0 })
        t from rfl]
    rcases ih (update g i fun nd => { nd with adjoint_value := F.int 0 }) with h | h
    · left; exact h
    · by_cases hk : k = i
      · subst hk
        by_cases hlt : k < List.length g
        · left; rw [h, get_update_self g k _ hlt]
        · right; rw [h, update_oob g k _ (Nat.le_of_not_lt hlt)]
      · right; rw [h, get_update_ne g i k _ hk]

/-- The freshly appended node of a mkVar call. -/
theorem get_mkVar_new (nm : String) (g : Graph) :
    get (mkVar nm g).1 (mkVar nm g).2
      = { name := nm, op := OpKind.val, children := [], parents := [],
          eval_value := F.nan, forward_value := F.nan,
          adjoint_value := F.nan } :=
  getD_append_len defNode g _

/-! ### Fuel monotonicity and determinism of the dfs walk -/

theorem dfsAux_mono (g : Graph) :
    ∀ (fuel : Nat) (p : List (Nat × Bool)) (s acc l : List Nat),
      dfsAux g fuel p s acc = some l → dfsAux g (fuel + 1) p s acc = some l := by
  intro fuel
  induction fuel with
  | zero =>
    intro p s acc l h
    cases p with
    | nil => exact h
    | cons x rest => exact absurd h (by simp [dfsAux])
  | succ n ih =>
    intro p s acc l h
    cases p with
    | nil => exact h
    | cons x rest =>
      obtain ⟨c, e⟩ := x
      cases e with
      | true =>
        simp only [dfsAux] at h ⊢
        exact ih rest s (c :: acc) l h
      | false =>
        simp only [dfsAux] at h ⊢
        by_cases hc : (get g c).children.isEmpty
        · rw [if_pos hc] at h ⊢
          exact ih rest s (c :: acc) l h
        · rw [if_neg hc] at h ⊢
          exact ih _ _ acc l h

theorem dfsAux_mono_le (g : Graph) {f1 f2 : Nat} (hle : f1 ≤ f2)
    (p : List (Nat × Bool)) (s acc l : List Nat)
    (h : dfsAux g f1 p s acc = some l) : dfsAux g f2 p s acc = some l := by
  induction hle with
  | refl => exact h
  | step _ ih => exact dfsAux_mono g _ p s acc l ih

theorem dfs_det {g : Graph} {root f1 f2 : Nat} {l1 l2 : List Nat}
    (h1 : dfs g root f1 = some l1) (h2 : dfs g root f2 = some l2) :
    l1 = l2 := by
  unfold dfs at h1 h2
  rcases Nat.le_total f1 f2 with h | h
  · have := dfsAux_mono_le g h _ _ _ _ h1
    rw [this] at h2
    exact Option.some.inj h2
  · have := dfsAux_mono_le g h _ _ _ _ h2
    rw [this] at h1
    exact (Option.some.inj h1).symm

theorem dfs_none_or (g : Graph) (root fuel : Nat) (L : List Nat)
    (hL : dfs g root 20 = some L) :
    dfs g root fuel = none ∨ dfs g root fuel = some L := by
  rcases h : dfs g root fuel with _ | l
  · left; rfl
  · right
    exact congrArg some (dfs_det h hL)

/-! ### Stage snapshots of the diamond backward pass -/

/-- Yield order of the dfs walk on the diamond graph. -/
def LDiamond : List Nat := [2, 1, 4, 0, 3, 5]

/-- The diamond graph after the evaluation stage of backward. -/
def gDiamondEval : Graph := evalFold gDiamond LDiamond

/-- The diamond graph after the clear_grad stage of backward. -/
def gDiamondCleared : Graph := clear_grad_fold gDiamondEval LDiamond

/-- First forward pass (seed x) on the diamond graph. -/
def fwdDiamond1 : Option (Graph × F) := forward gDiamond 5 0 40

/-- Second forward pass (seed y) on the diamond graph, after the first. -/
def fwdDiamond2 : Option (Graph × F) := fwdDiamond1.bind fun p => forward p.1 5 1 40

/-- Third forward pass (seed z) on the diamond graph, after the second. -/
def fwdDiamond3 : Option (Graph × F) := fwdDiamond2.bind fun p => forward p.1 5 2 40

/-- Backward pass on the diamond graph after the three forward passes. -/
def bwdDiamond : Option Graph := fwdDiamond3.bind fun p => backward p.1 5 40

/-! ### The livelock of the parent-gated walk on gTwoRoots -/

/-- Yield order of the dfs walk on gTwoRoots from root 4. -/
def LTwoRoots : List Nat := [3, 0, 4]

/-- gTwoRoots after the evaluation stage of backward on root 4. -/
def gTwoRootsEval : Graph := evalFold gTwoRoots LTwoRoots

/-- gTwoRoots at the start of the parent-gated walk of backward on root 4
(evaluated, adjoints cleared, root seeded with 1). -/
def gTwoRoots3 : Graph :=
  update (clear_grad_fold gTwoRootsEval LTwoRoots) 4
    fun nd => { nd with adjoint_value := F.int 1 }

/-- Once the walk reaches pending = [0] with yielded = [3, 4], it re-defers
node 0 forever: node 0's parents are [2, 4] and node 2 (the other root
a = x + 2) is not reachable from root 4, hence never yielded. -/
theorem bfs_gTwoRoots3_stuck :
    ∀ (fuel : Nat) (acc : List Nat),
      bfsAux gTwoRoots3 fuel [0] [3, 0, 4] [3, 4] acc = none := by
  intro fuel
  induction fuel with
  | zero => intro acc; rfl
  | succ n ih =>
    intro acc
    simp only [bfsAux]
    rw [if_neg (by decide)]
    exact ih acc

/-- The parent-gated walk of backward on root 4 of gTwoRoots never
finishes, whatever the fuel. -/
theorem bfs_gTwoRoots3_none : ∀ fuel, bfs gTwoRoots3 4 fuel = none := by
  intro fuel
  cases fuel with
  | zero => rfl
  | succ n =>
    cases n with
    | zero => rfl
    | succ m =>
      cases m with
      | zero => rfl
      | succ p => exact bfs_gTwoRoots3_stuck (p + 1) [3, 4]

/-! ### Claim theorems (concrete) -/

/-- C1: on f = (x*y) + (y*z) with x=3, y=5, z=11, forward-mode returns 5,
14, 5 for seeds x, y, z, and after backward() the stored gradients at x, y,
z are 5, 14, 5 — forward and reverse mode agree on every partial
derivative. -/
theorem forward_and_backward_agree_on_diamond :
    fwdDiamond1.map Prod.snd = some (F.int 5)
    ∧ fwdDiamond2.map Prod.snd = some (F.int 14)
    ∧ fwdDiamond3.map Prod.snd = some (F.int 5)
    ∧ bwdDiamond.map (fun g => (grad g 0, grad g 1, grad g 2))
        = some (F.int 5, F.int 14, F.int 5) := by
  refine ⟨?_, ?_, ?_, ?_⟩ <;> decide

/-- C2 (code bug witness): on s = x + x, c = s * 2, q = c + 3, r = s + q,
the depth-first walk yields node 3 (the product c) before node 1 (its child
s): the yield order is [4, 2, 3, 5, 0, 1, 6] while the children of node 3
are [1, 2].  Consequently value() evaluates c from s's untouched NaN slot
and returns NaN for r even though every leaf is assigned. -/
theorem dfs_yields_node_before_its_child_on_shared_subgraph :
    dfs gShared 6 40 = some [4, 2, 3, 5, 0, 1, 6]
    ∧ (get gShared 3).children = [1, 2]
    ∧ (value gShared 6 40).map Prod.snd = some F.nan := by
  refine ⟨?_, ?_, ?_⟩ <;> decide

/-- C3: in the diamond graph, after backward() the adjoint at y equals the
sum of the two parents' contributions (adjoint of x*y times x's value, plus
adjoint of y*z times z's value, per the Mult rule), namely 3 + 11 = 14, and
the clear_grad stage first reset every reachable node's adjoint to 0. -/
theorem diamond_adjoint_is_additive_sum_of_parent_contribs :
    (backward gDiamond 5 40).map (fun g => grad g 1) = some (F.int 14)
    ∧ (backward gDiamond 5 40).map
        (fun g => F.add (F.mul (grad g 3) (get g 0).eval_value)
          (F.mul (grad g 4) (get g 2).eval_value)) = some (F.int 14)
    ∧ F.add (F.int 3) (F.int 11) = F.int 14
    ∧ dfs gDiamond 5 40 = some LDiamond
    ∧ ((get gDiamondCleared 0).adjoint_value, (get gDiamondCleared 1).adjoint_value,
       (get gDiamondCleared 2).adjoint_value, (get gDiamondCleared 3).adjoint_value,
       (get gDiamondCleared 4).adjoint_value, (get gDiamondCleared 5).adjoint_value)
        = (F.int 0, F.int 0, F.int 0, F.int 0, F.int 0, F.int 0) := by
  refine ⟨?_, ?_, ?_, ?_, ?_⟩ <;> decide

/-- C4 (counterexample): pow with an existing composite node as exponent
overwrites that operand's operator.  With e = x + y (node 2 of gPowOperand),
after x ** e the operator of node 2 has changed from Add to Val, refuting
the claim that no field other than the parents list of an operand changes. -/
theorem pow_builder_overwrites_exponent_operator :
    (get gPowOperand 2).op = OpKind.add
    ∧ (get (powB gPowOperand 0 2).1 2).op = OpKind.val := by
  exact ⟨by decide, by decide⟩

/-- C6 (code bug witness): n (node 3) is not reachable from the root f
(node 2) of gDetached.  forward(n) on the root returns 0, but after
backward() on the root, n's stored gradient is NaN — the constructor
initialized the adjoint slot to NaN (contradicting its own docstring, which
says 0.0) and no pass over the root ever touches n. -/
theorem unreachable_node_grad_is_nan_after_backward :
    (forward gDetached 2 3 40).map Prod.snd = some (F.int 0)
    ∧ (backward gDetached 2 40).map (fun g => grad g 3) = some F.nan
    ∧ F.nan ≠ F.int 0 := by
  refine ⟨?_, ?_, ?_⟩ <;> decide

/-- C8 (code bug witness): on gShared, a first forward pass with seed x
returns NaN, while a second forward pass with the same seed on the same
graph returns 6: the second call reads the forward values the first call
left in the shared node s (the gray-marking dfs yields c before its child
s), so a forward call's result depends on the previous call — derivative
state leaks between passes. -/
theorem forward_result_depends_on_previous_forward_call :
    (forward gShared 6 0 40).map Prod.snd = some F.nan
    ∧ ((forward gShared 6 0 40).bind fun p => forward p.1 6 0 40).map Prod.snd
        = some (F.int 6)
    ∧ F.nan ≠ F.int 6 := by
  refine ⟨?_, ?_, ?_⟩ <;> decide

/-- C9 (code bug witness): on gShared, the first value() call returns NaN
and the second returns 9 without any leaf reassignment in between — value()
is not idempotent, because the first dfs walk evaluates c before its child
s and the stale NaN poisons the root. -/
theorem value_is_not_idempotent_on_shared_subgraph :
    (value gShared 6 40).map Prod.snd = some F.nan
    ∧ ((value gShared 6 40).bind fun p => value p.1 6 40).map Prod.snd
        = some (F.int 9)
    ∧ F.nan ≠ F.int 9 := by
  refine ⟨?_, ?_, ?_⟩ <;> decide

/-- C4 (amended): every builder call on existing nodes leaves every field of
every pre-existing node unchanged except the parents back-reference lists of
the operands — with one exception forced by the counterexample: pow
additionally overwrites its exponent operand's operator with the constant
operator (by design, pow only allows constant exponents).  All other fields
of the exponent operand, and all fields of every other pre-existing node
except operand parents lists, are unchanged. -/
theorem builders_mutate_only_operand_parent_lists (g : Graph) (i j : Nat) :
    buildFrame g (addB g i j).1 [i, j]
    ∧ buildFrame g (subB g i j).1 [i, j]
    ∧ buildFrame g (multB g i j).1 [i, j]
    ∧ buildFrame g (divB g i j).1 [i, j]
    ∧ buildFrame g (negB g i).1 [i]
    ∧ (∀ k, k < List.length g → k ≠ j →
        sameExceptParents (get (powB g i j).1 k) (get g k))
    ∧ (∀ k, k < List.length g → k ≠ i → k ≠ j →
        (get (powB g i j).1 k).parents = (get g k).parents)
    ∧ (j < List.length g →
        (get (powB g i j).1 j).op = OpKind.val
        ∧ (get (powB g i j).1 j).name = (get g j).name
        ∧ (get (powB g i j).1 j).children = (get g j).children
        ∧ (get (powB g i j).1 j).eval_value = (get g j).eval_value
        ∧ (get (powB g i j).1 j).forward_value = (get g j).forward_value
        ∧ (get (powB g i j).1 j).adjoint_value = (get g j).adjoint_value) :=
  ⟨mkBinary_frame "+" OpKind.add g i j, mkBinary_frame "-" OpKind.sub g i j,
   mkBinary_frame "*" OpKind.mult g i j, mkBinary_frame "/" OpKind.div g i j,
   negB_frame g i, (powB_frame g i j).1, (powB_frame g i j).2.1,
   (powB_frame g i j).2.2⟩

/-- Witness for the builder frame theorem at a concrete graph: in
gPowOperand (three nodes), adding nodes 0 and 1 changes no field of node 0
except possibly parents, and leaves node 1's parents unchanged when node 1
is not an operand. -/
theorem builders_mutate_only_operand_parent_lists_w :
    0 < List.length gPowOperand
    ∧ sameExceptParents (get (addB gPowOperand 0 1).1 0) (get gPowOperand 0)
    ∧ (get (addB gPowOperand 0 2).1 1).parents = (get gPowOperand 1).parents :=
  ⟨by decide,
   ((builders_mutate_only_operand_parent_lists gPowOperand 0 1).1 0
     (by decide)).1,
   ((builders_mutate_only_operand_parent_lists gPowOperand 0 2).1 1
     (by decide)).2 (by decide)⟩

/-- C5 (code bug witness): backward() on root b = node 4 of gTwoRoots never
terminates, for every fuel bound, although value() and forward() on the same
root do: the leaf x (node 0) is reachable from b but has the parent a =
node 2 which is not reachable from b, so the parent-gated walk re-defers x
forever. -/
theorem backward_diverges_when_reachable_node_has_unreachable_parent :
    (∀ fuel, backward gTwoRoots 4 fuel = none)
    ∧ (value gTwoRoots 4 20).isSome = true
    ∧ (forward gTwoRoots 4 0 20).isSome = true := by
  refine ⟨?_, by decide, by decide⟩
  intro fuel
  rcases dfs_none_or gTwoRoots 4 fuel LTwoRoots
      (by decide : dfs gTwoRoots 4 20 = some LTwoRoots) with hd | hd
  · have hv : value gTwoRoots 4 fuel = none := by
      unfold value; rw [hd]
    unfold backward
    rw [hv]
  · have hv : value gTwoRoots 4 fuel
        = some (gTwoRootsEval, (get gTwoRootsEval 4).eval_value) := by
      unfold value; rw [hd]; rfl
    unfold backward
    rw [hv]
    rcases dfs_none_or gTwoRootsEval 4 fuel LTwoRoots
        (by decide : dfs gTwoRootsEval 4 20 = some LTwoRoots) with h2 | h2
    · show (match dfs gTwoRootsEval 4 fuel with
        | none => (none : Option Graph)
        | some l =>
          match bfs (update (clear_grad_fold gTwoRootsEval l) 4
              fun nd => { nd with adjoint_value := F.int 1 }) 4 fuel with
          | none => none
          | some lb => some (lb.foldl backwardStep
              (update (clear_grad_fold gTwoRootsEval l) 4
                fun nd => { nd with adjoint_value := F.int 1 }))) = none
      rw [h2]
    · show (match dfs gTwoRootsEval 4 fuel with
        | none => (none : Option Graph)
        | some l =>
          match bfs (update (clear_grad_fold gTwoRootsEval l) 4
              fun nd => { nd with adjoint_value := F.int 1 }) 4 fuel with
          | none => none
          | some lb => some (lb.foldl backwardStep
              (update (clear_grad_fold gTwoRootsEval l) 4
                fun nd => { nd with adjoint_value := F.int 1 }))) = none
      rw [h2]
      show (match bfs gTwoRoots3 4 fuel with
        | none => (none : Option Graph)
        | some lb => some (lb.foldl backwardStep gTwoRoots3)) = none
      rw [bfs_gTwoRoots3_none fuel]

/-- C10: a freshly constructed node's adjoint slot (and its value and
forward slots) is NaN, not 0, and grad() reads that slot, so grad() on a
fresh node returns NaN; the evaluation and forward passes never touch any
adjoint slot, and the clear_grad stage is the one that writes 0 (every
adjoint it touches becomes 0, every other adjoint is unchanged). -/
theorem fresh_node_grad_is_nan (g : Graph) (nm : String) (wrt k : Nat)
    (l : List Nat) :
    grad (mkVar nm g).1 (mkVar nm g).2 = F.nan
    ∧ (get (mkVar nm g).1 (mkVar nm g).2).adjoint_value = F.nan
    ∧ (get (mkVar nm g).1 (mkVar nm g).2).eval_value = F.nan
    ∧ (get (mkVar nm g).1 (mkVar nm g).2).forward_value = F.nan
    ∧ F.nan ≠ F.int 0
    ∧ grad g k = (get g k).adjoint_value
    ∧ (get (evalFold g l) k).adjoint_value = (get g k).adjoint_value
    ∧ (get (forwardFold wrt g l) k).adjoint_value = (get g k).adjoint_value
    ∧ ((get (clear_grad_fold g l) k).adjoint_value = F.int 0
        ∨ (get (clear_grad_fold g l) k).adjoint_value
            = (get g k).adjoint_value) := by
  refine ⟨?_, ?_, ?_, ?_, by decide, rfl, adj_evalFold l g k,
    adj_forwardFold wrt l g k, adj_clear_grad_fold l g k⟩
  · show (get (mkVar nm g).1 (mkVar nm g).2).adjoint_value = F.nan
    rw [get_mkVar_new]
  · rw [get_mkVar_new]
  · rw [get_mkVar_new]
  · rw [get_mkVar_new]

/-! ### Real-valued transcription of Pow's adjoint rule -/

/-- A real number or NaN, for the one operator rule whose result involves
a transcendental function (Pow's exponent adjoint uses ln, which has no
exact rational representation). -/
inductive RF : Type
  | nan : RF
  | num (x : ℝ) : RF

/-- A Python number that is a float or a complex. -/
inductive PyNum : Type
  | real (x : ℝ) : PyNum
  | cplx (z : ℂ) : PyNum

/-- Result of CPython's float `**` on real operands: a real number, a
complex number (negative base with a non-integer exponent), or a raised
ZeroDivisionError (zero base with a negative exponent). -/
inductive PowResult : Type
  | raises : PowResult
  | real (x : ℝ) : PowResult
  | cplx (z : ℂ) : PowResult

/-- The delivered value when `**` did not raise; none models the raised
ZeroDivisionError. -/
def PowResult.toNum? : PowResult → Option PyNum
  | PowResult.raises => none
  | PowResult.real x => some (PyNum.real x)
  | PowResult.cplx z => some (PyNum.cplx z)

/-- Multiplying a Python float into a float-or-complex number. -/
def PyNum.scale (c : ℝ) : PyNum → PyNum
  | PyNum.real x => PyNum.real (c * x)
  | PyNum.cplx z => PyNum.cplx ((c : ℂ) * z)

/-- CPython's float `**` on real operands: 0.0 to a negative power raises
ZeroDivisionError; a negative base with a non-integer exponent (written as:
the exponent differs from its floor) returns the principal complex power;
every other case returns the real power (Real.rpow, which for a
nonnegative base is exp(e ln b) with CPython's 0^e and b^0 conventions, and
for a negative base with an integer exponent equals the signed integer
power CPython returns). -/
noncomputable def pyPow (b e : ℝ) : PowResult :=
  if b = 0 ∧ e < 0 then PowResult.raises
  else if b < 0 ∧ e ≠ ((⌊e⌋ : ℤ) : ℝ) then PowResult.cplx ((b : ℂ) ^ (e : ℂ))
  else PowResult.real (b ^ e)

theorem pyPow_raises_iff (b e : ℝ) :
    pyPow b e = PowResult.raises ↔ b = 0 ∧ e < 0 := by
  unfold pyPow
  split_ifs with h1 h2
  · exact ⟨fun _ => h1, fun _ => rfl⟩
  · exact ⟨False.elim, fun hc => absurd hc h1⟩
  · exact ⟨False.elim, fun hc => absurd hc h1⟩

theorem pyPow_pos (b e : ℝ) (hb : 0 < b) :
    pyPow b e = PowResult.real (b ^ e) := by
  have h1 : ¬(b = 0 ∧ e < 0) :=
    fun hc => absurd hb (by rw [hc.1]; exact lt_irrefl 0)
  have h2 : ¬(b < 0 ∧ e ≠ ((⌊e⌋ : ℤ) : ℝ)) :=
    fun hc => absurd hc.1 (not_lt.mpr (le_of_lt hb))
  unfold pyPow
  rw [if_neg h1, if_neg h2]

theorem pyPow_cplx_neg (b e : ℝ) (z : ℂ)
    (h : pyPow b e = PowResult.cplx z) : b < 0 := by
  unfold pyPow at h
  split_ifs at h with h1 h2
  exact h2.1

/-- Transcription of Pow._backward over the reals: given the node's
evaluated value (val), its adjoint (val_d), the exponent child's value
(power_val) and the base child's value (quotient_val) — all Python floats,
modelled as reals — run the two accumulations in source order and return
the pair of contributions delivered to the base child and to the exponent
child, or none when the first accumulation's power quotient_val **
(power_val - 1) raises ZeroDivisionError, aborting the method before the
exponent child receives anything. -/
noncomputable def Pow_backward_run (val_d val power_val quotient_val : ℝ) :
    Option (PyNum × RF) :=
  match pyPow quotient_val (power_val - 1) with
  | PowResult.raises => none
  | PowResult.real x =>
      some (PyNum.real (val_d * power_val * x),
        if quotient_val ≤ 0 then RF.nan
        else RF.num (val_d * val * Real.log quotient_val))
  | PowResult.cplx z =>
      some (PyNum.cplx ((val_d * power_val : ℝ) * z),
        if quotient_val ≤ 0 then RF.nan
        else RF.num (val_d * val * Real.log quotient_val))

/-- C7 (counterexample): at the reachable state of f = x ** 0.5 with
x = 0 — adjoint 1, value 0, exponent 1/2, base 0 — Pow._backward evaluates
0.0 ** (-0.5), which raises ZeroDivisionError: the method aborts and the
exponent child receives nothing, although the base 0 is <= 0 where the
claim promises a NaN delivery with no exception. -/
theorem pow_backward_raises_on_zero_base_with_fractional_exponent :
    Pow_backward_run 1 0 (1 / 2) 0 = none ∧ (0 : ℝ) ≤ 0 := by
  constructor
  · have h : pyPow 0 ((1 : ℝ) / 2 - 1) = PowResult.raises :=
      (pyPow_raises_iff 0 ((1 : ℝ) / 2 - 1)).mpr ⟨rfl, by norm_num⟩
    unfold Pow_backward_run
    rw [h]
  · exact le_refl 0

/-- C7 (amended): Pow's adjoint distribution raises exactly when the base
child's value is 0 and the exponent child's value is below 1 (the base
contribution then evaluates 0.0 to a negative power); whenever it does not
raise, the irregular values propagate silently: the exponent child receives
NaN exactly when the base is <= 0 and, for a positive base, receives
adjoint * value * ln(base); and the base child receives adjoint * exponent
* base ** (exponent - 1) under Python's power semantics (a complex number
when the base is negative and the exponent - 1 is not an integer). -/
theorem pow_backward_run_characterization
    (val_d val power_val quotient_val : ℝ) :
    (Pow_backward_run val_d val power_val quotient_val = none
      ↔ quotient_val = 0 ∧ power_val < 1)
    ∧ (∀ r, Pow_backward_run val_d val power_val quotient_val = some r →
        ((r.2 = RF.nan ↔ quotient_val ≤ 0)
         ∧ some r.1 = Option.map (PyNum.scale (val_d * power_val))
             (pyPow quotient_val (power_val - 1)).toNum?))
    ∧ (0 < quotient_val →
        Pow_backward_run val_d val power_val quotient_val
          = some (PyNum.real
                (val_d * power_val * quotient_val ^ (power_val - 1)),
              RF.num (val_d * val * Real.log quotient_val))) := by
  rcases hP : pyPow quotient_val (power_val - 1) with _ | x | z
  · have hiff := (pyPow_raises_iff quotient_val (power_val - 1)).mp hP
    have hrun : Pow_backward_run val_d val power_val quotient_val = none := by
      unfold Pow_backward_run
      rw [hP]
    refine ⟨?_, ?_, ?_⟩
    · rw [hrun]
      exact ⟨fun _ => ⟨hiff.1, by linarith [hiff.2]⟩, fun _ => rfl⟩
    · intro r h
      rw [hrun] at h
      exact Option.noConfusion h
    · intro hq
      rw [hiff.1] at hq
      exact absurd hq (lt_irrefl 0)
  · have hrun : Pow_backward_run val_d val power_val quotient_val
        = some (PyNum.real (val_d * power_val * x),
            if quotient_val ≤ 0 then RF.nan
            else RF.num (val_d * val * Real.log quotient_val)) := by
      unfold Pow_backward_run
      rw [hP]
    refine ⟨?_, ?_, ?_⟩
    · rw [hrun]
      constructor
      · intro h
        exact absurd h (by simp)
      · intro hc
        have hr : pyPow quotient_val (power_val - 1) = PowResult.raises :=
          (pyPow_raises_iff _ _).mpr ⟨hc.1, by linarith [hc.2]⟩
        rw [hP] at hr
        exact PowResult.noConfusion hr
    · intro r h
      rw [hrun] at h
      obtain rfl := (Option.some.inj h).symm
      constructor
      · show (if quotient_val ≤ 0 then RF.nan
          else RF.num (val_d * val * Real.log quotient_val)) = RF.nan
          ↔ quotient_val ≤ 0
        by_cases hq : quotient_val ≤ 0
        · rw [if_pos hq]
          exact ⟨fun _ => hq, fun _ => rfl⟩
        · rw [if_neg hq]
          exact ⟨fun hh => absurd hh (by simp), fun hh => absurd hh hq⟩
      · show some (PyNum.real (val_d * power_val * x))
          = Option.map (PyNum.scale (val_d * power_val))
              (PowResult.real x).toNum?
        rfl
    · intro hq
      have hx := pyPow_pos quotient_val (power_val - 1) hq
      rw [hP] at hx
      obtain rfl := PowResult.real.inj hx
      rw [hrun, if_neg (not_le.mpr hq)]
  · have hneg : quotient_val < 0 :=
      pyPow_cplx_neg quotient_val (power_val - 1) z hP
    have hrun : Pow_backward_run val_d val power_val quotient_val
        = some (PyNum.cplx ((val_d * power_val : ℝ) * z),
            if quotient_val ≤ 0 then RF.nan
            else RF.num (val_d * val * Real.log quotient_val)) := by
      unfold Pow_backward_run
      rw [hP]
    refine ⟨?_, ?_, ?_⟩
    · rw [hrun]
      constructor
      · intro h
        exact absurd h (by simp)
      · intro hc
        have hr : pyPow quotient_val (power_val - 1) = PowResult.raises :=
          (pyPow_raises_iff _ _).mpr ⟨hc.1, by linarith [hc.2]⟩
        rw [hP] at hr
        exact PowResult.noConfusion hr
    · intro r h
      rw [hrun] at h
      obtain rfl := (Option.some.inj h).symm
      constructor
      · show (if quotient_val ≤ 0 then RF.nan
          else RF.num (val_d * val * Real.log quotient_val)) = RF.nan
          ↔ quotient_val ≤ 0
        rw [if_pos (le_of_lt hneg)]
        exact ⟨fun _ => le_of_lt hneg, fun _ => rfl⟩
      · show some (PyNum.cplx ((val_d * power_val : ℝ) * z))
          = Option.map (PyNum.scale (val_d * power_val))
              (PowResult.cplx z).toNum?
        rfl
    · intro hq
      exact absurd (lt_trans hq hneg) (lt_irrefl 0)

/-- Witness for the amended Pow adjoint theorem at base 1 (positive, so no
raise): the base child receives adjoint * exponent * 1^(exponent-1) and the
exponent child receives adjoint * value * ln 1. -/
theorem pow_backward_run_characterization_w :
    (0 : ℝ) < 1
    ∧ Pow_backward_run 1 1 2 1
        = some (PyNum.real (1 * 2 * (1 : ℝ) ^ ((2 : ℝ) - 1)),
            RF.num (1 * 1 * Real.log 1)) :=
  ⟨zero_lt_one,
   (pow_backward_run_characterization 1 1 2 1).2.2 zero_lt_one⟩

end Autodiff
